import Mathlib

/-!
Verification development for the TradeFlash Lite ingestion core (`src/App.tsx`).

The TypeScript source is shallowly embedded: JavaScript numbers are modelled
as `ℚ` (with a small `JsVal` sum for the dynamically-typed basis payload,
where `NaN`/`Infinity`/strings matter), `undefined`/`null`-able fields as
`Option`, JS objects used as string-keyed maps as association lists with
insert-or-replace-in-place semantics (matching JS property-update order), and
the WebSocket `onmessage` handler as a state-transition function on the
component's state.
-/

set_option autoImplicit false

namespace TradeFlash

/-! ### JS dynamic values (for the loosely-typed basis payloads) -/

/-- A JavaScript value as far as the basis-handling code can observe it:
a finite number, `NaN`, `±Infinity`, a string, a boolean, `null` or
`undefined`. -/
inductive JsVal where
  | num (q : ℚ)
  | nan
  | inf
  | neginf
  | str (s : String)
  | boolv (b : Bool)
  | nullv
  | undef
  deriving DecidableEq, Repr

/-- `typeof x === "number" && Number.isFinite(x)` for a `JsVal`
(`NaN` and `±Infinity` are numbers but not finite). -/
def isFiniteNum : JsVal → Bool
  | .num _ => true
  | _ => false

/-! ### Normalizers and formatters -/

/-- `notionalOf`'s parameter shape `{ notional?: number; qty?: number; price?: number }`. -/
structure NotionalArgs where
  notional : Option ℚ
  qty : Option ℚ
  price : Option ℚ
  deriving DecidableEq, Repr

/-- `notionalOf`: `Math.round(m.notional ?? ((m.qty || 0) * (m.price || 0) * 100))`.
`Math.round` is `round` on `ℚ` (half rounds toward +∞, as in JS);
`x || 0` on an optional numeric field is `Option.getD 0`. -/
def notionalOf (m : NotionalArgs) : ℤ :=
  round (m.notional.getD ((m.qty.getD 0) * (m.price.getD 0) * 100))

/-- `fmtIvPct`: dash for non-finite or non-positive input, else interpret
values above `1.5` as already-percent, scale others by `100`, cap at `300`,
round, append `"%"`. The argument is the result of `Number(iv)`: `none`
stands for a non-finite coercion result. -/
def fmtIvPct (iv : Option ℚ) : String :=
  match iv with
  | none => "—"
  | some n =>
    if n ≤ 0 then "—"
    else
      let pctRaw := if 3/2 < n then n else n * 100
      let pct := min pctRaw 300
      toString (round pct) ++ "%"

/-- Modelled from the spec sentence for C8 (the claim's own wording, to be
compared with `fmtIvPct` from the source): an input at or below 1.5 is a 0–1
ratio scaled by 100, an input above 1.5 is already a percentage, the result is
capped at 300 and rounded to an integer with a percent sign, and an invalid or
non-positive input renders the missing marker. -/
def fmtIvPctSpec (iv : Option ℚ) : String :=
  match iv with
  | none => "—"
  | some n =>
    if n ≤ 0 then "—"
    else if n ≤ 3/2 then toString (round (min (n * 100) 300)) ++ "%"
    else toString (round (min n 300)) ++ "%"

/-- `normalizeSymbol`: `s.toUpperCase().replace(/^\//, "")` — uppercase, then
strip a single leading `/` (expressed on the character list so that it
computes by kernel reduction). -/
def normalizeSymbol (s : String) : String :=
  match (s.toList.map Char.toUpper) with
  | '/' :: rest => String.mk rest
  | u => String.mk u

/-! ### Ticker parsing (`TICKER_OK`, `uniq`, `parseSymbolsList`) -/

/-- Character class `[A-Z0-9]` of `TICKER_OK`. -/
def isAlnumUp (c : Char) : Bool :=
  ('A' ≤ c && c ≤ 'Z') || ('0' ≤ c && c ≤ '9')

/-- Character class `[A-Z0-9.\-_/]` of `TICKER_OK`. -/
def isTickerRest (c : Char) : Bool :=
  isAlnumUp c || c = '.' || c = '-' || c = '_' || c = '/'

/-- The regex `TICKER_OK = /^[A-Z0-9][A-Z0-9.\-_/]{0,9}$/`. -/
def tickerOk (s : String) : Bool :=
  match s.toList with
  | [] => false
  | c :: cs => isAlnumUp c && cs.length ≤ 9 && cs.all isTickerRest

/-- Modelled from the spec sentence for C7 (the claim's own wording, to be
compared with `tickerOk` from the source): 1–10 characters, first character
alphanumeric, remaining characters alphanumeric or one of `. - _ /`. -/
def tickerOkSpec (s : String) : Bool :=
  decide (1 ≤ s.toList.length) && decide (s.toList.length ≤ 10)
    && (match s.toList.head? with
        | none => false
        | some c => isAlnumUp c)
    && s.toList.tail.all isTickerRest

/-- The character class `[\s,;|]` used to split a string input
(`\s` as JS sees it for ASCII text). -/
def isDelim (c : Char) : Bool :=
  c = ' ' || c = '\t' || c = '\n' || c = '\r' || c = '\x0b' || c = '\x0c'
    || c = ',' || c = ';' || c = '|'

/-- Split on single delimiter characters, keeping empty fields. JS splits on
`/[\s,;|]+/` (collapsing runs); the two agree after the `TICKER_OK` filter,
which drops every empty field either way. -/
def splitAux : List Char → List Char → List String
  | [], acc => [String.mk acc.reverse]
  | c :: cs, acc =>
    if isDelim c then String.mk acc.reverse :: splitAux cs []
    else splitAux cs (c :: acc)

/-- `v.split(/[\s,;|]+/)` up to empty fields (see `splitAux`). -/
def splitDelims (s : String) : List String :=
  splitAux s.toList []

/-- `s.trim()` for ASCII text: strip leading and trailing whitespace. -/
def trimJS (s : String) : String :=
  String.mk (((s.toList.dropWhile Char.isWhitespace).reverse.dropWhile
    Char.isWhitespace).reverse)

/-- `s.trim().toUpperCase()` applied to each candidate token. -/
def procToken (s : String) : String :=
  String.mk ((trimJS s).toList.map Char.toUpper)

/-- `Array.from(new Set(arr))`: first occurrences, in order. -/
def uniqAux (seen : List String) : List String → List String
  | [] => []
  | x :: xs => if x ∈ seen then uniqAux seen xs else x :: uniqAux (x :: seen) xs

/-- `uniq` from the source (JS `Set` iteration order is insertion order). -/
def uniq (l : List String) : List String :=
  uniqAux [] l

/-- The dynamic argument of `parseSymbolsList`: an array of strings, a single
string, or anything else. -/
inductive SymInput where
  | arrI (l : List String)
  | strI (s : String)
  | otherI
  deriving DecidableEq, Repr

/-- The raw token list `Array.isArray(v) ? v.map(String) : typeof v === "string" ? v.split(/[\s,;|]+/) : []`. -/
def rawTokens : SymInput → List String
  | .arrI l => l
  | .strI s => splitDelims s
  | .otherI => []

/-- `parseSymbolsList`: trim + uppercase each token, keep those matching
`TICKER_OK`, de-duplicate preserving first occurrence. -/
def parseSymbolsList (v : SymInput) : List String :=
  uniq (((rawTokens v).map procToken).filter tickerOk)

/-! ### Data model (Types section of the source) -/

/-- `EquityTick`. -/
structure EquityTick where
  symbol : String
  last : Option ℚ
  bid : Option ℚ
  ask : Option ℚ
  iv : Option ℚ
  ts : Option ℚ
  deriving DecidableEq, Repr

/-- `"C" | "P"` / `"CALL" | "PUT"`. -/
inductive Right where
  | C
  | P
  deriving DecidableEq, Repr

/-- `"BUY" | "SELL" | "UNKNOWN"`. -/
inductive Side where
  | BUY
  | SELL
  | UNKNOWN
  deriving DecidableEq, Repr

/-- `OptionRow`. -/
structure OptionRow where
  underlying : String
  expiration : String
  strike : ℚ
  right : Right
  last : Option ℚ
  bid : Option ℚ
  ask : Option ℚ
  ts : Option ℚ
  deriving DecidableEq, Repr

/-- `FlowBase` (a `Sweep`/`Block` print; the `kind` tag is determined by the
buffer an event sits in). -/
structure Flow where
  ul : String
  right : Right
  strike : ℚ
  expiry : String
  side : Side
  qty : ℚ
  price : ℚ
  notional : Option ℚ
  prints : Option ℚ
  venue : Option String
  ts : ℚ
  deriving DecidableEq, Repr

/-- One watchlist option entry. -/
structure WlOption where
  underlying : String
  expiration : String
  strike : ℚ
  right : Right
  deriving DecidableEq, Repr

/-- `Watchlist`. -/
structure Watchlist where
  equities : List String
  options : List WlOption
  deriving DecidableEq, Repr

/-- The raw `watchlist` payload before `normalizeWatchlist`: `raw?.equities`
is dynamic (`SymInput`), `raw?.options` is an array or not one. -/
structure WatchRaw where
  equities : SymInput
  options : Option (List WlOption)
  deriving DecidableEq, Repr

/-- `normalizeWatchlist`. -/
def normalizeWatchlist (raw : WatchRaw) : Watchlist :=
  { equities := parseSymbolsList raw.equities
    options := raw.options.getD [] }

/-! ### The component state touched by `onmessage` -/

/-- A JS string-keyed object as an association list: updating an existing key
replaces its value in place, a new key is appended at the end (JS property
order). -/
def upsert {α : Type} (m : List (String × α)) (k : String) (v : α) :
    List (String × α) :=
  match m with
  | [] => [(k, v)]
  | (k0, v0) :: rest =>
    if k0 = k then (k, v) :: rest else (k0, v0) :: upsert rest k v

/-- First-match association lookup (`obj[k]`). -/
def lookupA {α : Type} (m : List (String × α)) (k : String) : Option α :=
  match m with
  | [] => none
  | (k0, v0) :: rest => if k0 = k then some v0 else lookupA rest k

/-- The keys of an association map, in property order. -/
def keysOf {α : Type} (m : List (String × α)) : List String :=
  m.map Prod.fst

/-- How many entries of the map carry key `k`. -/
def countKey {α : Type} (m : List (String × α)) (k : String) : ℕ :=
  (keysOf m).count k

/-- The state the `onmessage` handler reads and writes: the `equity` map,
`options` list, `sweeps`/`blocks` buffers, watchlist `wl`, last error `err`
and `basis`. `basis` is a `JsVal` because the `basis`-topic path stores the
payload field unchecked. -/
structure AppState where
  equity : List (String × EquityTick)
  options : List OptionRow
  sweeps : List Flow
  blocks : List Flow
  wl : Watchlist
  err : Option String
  basis : JsVal
  deriving DecidableEq, Repr

/-- The initial state of the component (`useState` initialisers). -/
def initState : AppState :=
  { equity := [], options := [], sweeps := [], blocks := []
    wl := { equities := [], options := [] }, err := none, basis := .nullv }

/-! ### Reconciliation rules -/

/-- `{ ...t, symbol: sym }` with `sym = normalizeSymbol(t.symbol)`. -/
def canonTick (t : EquityTick) : EquityTick :=
  { t with symbol := normalizeSymbol t.symbol }

/-- The `setEquity` updater: fold each tick into the map under its canonical
symbol, replacing the whole prior entry. -/
def mergeTicks (m : List (String × EquityTick)) (arr : List EquityTick) :
    List (String × EquityTick) :=
  arr.foldl (fun m t => upsert m (normalizeSymbol t.symbol) (canonTick t)) m

/-- `prev.slice(-400)`: the most recent `n` entries (all of them when the
buffer is shorter). -/
def takeLast {α : Type} (n : ℕ) (l : List α) : List α :=
  l.drop (l.length - n)

/-- The `setSweeps`/`setBlocks` updater: `[...prev.slice(-400), ...batch]`. -/
def appendBatch (prev batch : List Flow) : List Flow :=
  takeLast 400 prev ++ batch

/-- The `equity_ts` payload: either a plain array of ticks, or an envelope
whose `rows` may or may not be an array and whose `es_spx_basis` is dynamic
(`JsVal.undef` when the field is absent). -/
inductive EquityPayload where
  | arr (rows : List EquityTick)
  | env (rows : Option (List EquityTick)) (es_spx_basis : JsVal)
  deriving DecidableEq, Repr

/-- A decoded frame, tagged by topic. `unknownMsg` carries any topic other
than the six recognised ones. For the `basis` topic the payload field is a
`JsVal` (`undef` when `msg.data` is falsy or lacks `es_spx_basis`). -/
inductive Msg where
  | equityMsg (p : EquityPayload)
  | basisMsg (es_spx_basis : JsVal)
  | optionsMsg (rows : List OptionRow)
  | sweepsMsg (evs : List Flow)
  | blocksMsg (evs : List Flow)
  | watchlistMsg (raw : WatchRaw)
  | unknownMsg (topic : String)
  deriving DecidableEq, Repr

/-- An inbound frame: either `JSON.parse` fails with a message, or a decoded
envelope. -/
inductive Frame where
  | malformed (emsg : String)
  | decoded (m : Msg)
  deriving DecidableEq, Repr

/-- The `equity_ts` case: extract the tick array (empty when absent), set
`basis` to the payload's `es_spx_basis` when it is a finite number and to
`null` otherwise, and merge the ticks (skipped when the array is empty). -/
def handleEquity (s : AppState) (p : EquityPayload) : AppState :=
  let arr : List EquityTick :=
    match p with
    | .arr rows => rows
    | .env rows _ => rows.getD []
  let maybeBasis : JsVal :=
    match p with
    | .arr _ => .nullv
    | .env _ b => if b = .undef then .nullv else b
  let s1 : AppState :=
    { s with basis := if isFiniteNum maybeBasis then maybeBasis else .nullv }
  if arr.isEmpty then s1
  else { s1 with equity := mergeTicks s1.equity arr }

/-- The topic dispatch of `onmessage` (the `switch` statement). The `basis`
case stores `es_spx_basis ?? null` with no finiteness or type check. -/
def handleMsg (s : AppState) : Msg → AppState
  | .equityMsg p => handleEquity s p
  | .basisMsg es => { s with basis := if es = .undef then .nullv else es }
  | .optionsMsg rows => { s with options := rows }
  | .sweepsMsg evs => { s with sweeps := appendBatch s.sweeps evs }
  | .blocksMsg evs => { s with blocks := appendBatch s.blocks evs }
  | .watchlistMsg raw => { s with wl := normalizeWatchlist raw }
  | .unknownMsg _ => s

/-- One `onmessage` invocation: a decode failure is caught and only sets
`err`; a decoded frame is dispatched. -/
def handleFrame (s : AppState) : Frame → AppState
  | .malformed emsg => { s with err := some emsg }
  | .decoded m => handleMsg s m

/-- Frames processed one at a time, in arrival order. -/
def foldFrames (s : AppState) (fs : List Frame) : AppState :=
  fs.foldl handleFrame s

/-! ### Connection backoff -/

/-- `Math.min(1000 * Math.pow(2, retry), 10000)` from `ws.onclose`. -/
def backoffDelay (retry : ℕ) : ℕ :=
  min (1000 * 2 ^ retry) 10000

/-- The retry state closed over by `connect`. -/
structure ConnSt where
  retry : ℕ
  deriving DecidableEq, Repr

/-- `ws.onopen`: reset the retry counter. -/
def onOpenConn (_ : ConnSt) : ConnSt :=
  { retry := 0 }

/-- `ws.onclose` (with `stopped` false): the scheduled delay uses the current
counter, which is post-incremented. -/
def onCloseConn (s : ConnSt) : ℕ × ConnSt :=
  (backoffDelay s.retry, { retry := s.retry + 1 })

/-! ### Derived views: option grouping -/

/-- The composite key `` `${r.underlying}:${r.expiration}` ``. -/
def optKey (r : OptionRow) : String :=
  r.underlying ++ ":" ++ r.expiration

/-- One iteration of the grouping loop: push `r` onto its key's group
(`m.get(k) ?? []` then `m.set(k, arr)`; `Map.set` keeps an existing key's
position). -/
def groupStep (m : List (String × List OptionRow)) (r : OptionRow) :
    List (String × List OptionRow) :=
  upsert m (optKey r) ((lookupA m (optKey r)).getD [] ++ [r])

/-- The in-group order: ascending strike (`(a, b) => a.strike - b.strike`). -/
def strikeLE (a b : OptionRow) : Prop :=
  a.strike ≤ b.strike

instance : DecidableRel strikeLE :=
  fun a b => inferInstanceAs (Decidable (a.strike ≤ b.strike))

instance : IsTotal OptionRow strikeLE :=
  ⟨fun a b => le_total a.strike b.strike⟩

instance : IsTrans OptionRow strikeLE :=
  ⟨fun _ _ _ hab hbc => le_trans hab hbc⟩

/-- `rows.sort((a, b) => a.strike - b.strike)`. -/
def sortByStrike (rows : List OptionRow) : List OptionRow :=
  rows.insertionSort strikeLE

/-- `optGrouped`: group the option rows by `optKey` in first-seen key order,
then sort each group by strike. -/
def optGrouped (options : List OptionRow) : List (String × List OptionRow) :=
  (options.foldl groupStep []).map (fun p => (p.1, sortByStrike p.2))

/-! ### Supporting lemmas -/

theorem takeLast_length {α : Type} (n : ℕ) (l : List α) :
    (takeLast n l).length = min n l.length := by
  simp only [takeLast, List.length_drop]
  omega

theorem takeLast_suffix {α : Type} (n : ℕ) (l : List α) :
    (takeLast n l).IsSuffix l :=
  List.drop_suffix _ _

theorem lookupA_upsert {α : Type} (m : List (String × α)) (k : String) (v : α) :
    lookupA (upsert m k v) k = some v := by
  induction m with
  | nil => simp [upsert, lookupA]
  | cons p rest ih =>
    obtain ⟨k0, v0⟩ := p
    by_cases h : k0 = k
    · simp [upsert, h, lookupA]
    · simp [upsert, h, lookupA, ih]

theorem keysOf_upsert {α : Type} (m : List (String × α)) (k : String) (v : α) :
    keysOf (upsert m k v) =
      if k ∈ keysOf m then keysOf m else keysOf m ++ [k] := by
  induction m with
  | nil => simp [upsert, keysOf]
  | cons p rest ih =>
    obtain ⟨k0, v0⟩ := p
    by_cases h : k0 = k
    · simp [upsert, h, keysOf]
    · have hne : k ≠ k0 := fun hh => h hh.symm
      have hstep : upsert ((k0, v0) :: rest) k v = (k0, v0) :: upsert rest k v := by
        simp [upsert, h]
      rw [hstep]
      have hkeys : keysOf ((k0, v0) :: upsert rest k v) =
          k0 :: keysOf (upsert rest k v) := rfl
      rw [hkeys, ih]
      have hmemiff : (k ∈ keysOf ((k0, v0) :: rest)) ↔ (k ∈ keysOf rest) := by
        simp [keysOf, hne]
      by_cases hm : k ∈ keysOf rest
      · rw [if_pos hm, if_pos (hmemiff.mpr hm)]
        rfl
      · rw [if_neg hm, if_neg (fun hh => hm (hmemiff.mp hh))]
        rfl

theorem nodup_keysOf_upsert {α : Type} {m : List (String × α)} (k : String)
    (v : α) (h : (keysOf m).Nodup) : (keysOf (upsert m k v)).Nodup := by
  rw [keysOf_upsert]
  split
  · exact h
  · rename_i hm
    rw [(List.perm_append_singleton k _).nodup_iff, List.nodup_cons]
    exact ⟨hm, h⟩

theorem countKey_upsert {α : Type} (m : List (String × α)) (k : String)
    (v : α) (h : (keysOf m).Nodup) : countKey (upsert m k v) k = 1 := by
  unfold countKey
  rw [keysOf_upsert]
  split
  · rename_i hm
    have hle := List.nodup_iff_count_le_one.mp h k
    have hpos : 0 < (keysOf m).count k := List.count_pos_iff.mpr hm
    omega
  · rename_i hm
    rw [List.count_append]
    have h0 : (keysOf m).count k = 0 := List.count_eq_zero.mpr hm
    simp [h0]

theorem mergeTicks_append_single (m : List (String × EquityTick))
    (pre : List EquityTick) (t : EquityTick) :
    mergeTicks m (pre ++ [t]) =
      upsert (mergeTicks m pre) (normalizeSymbol t.symbol) (canonTick t) := by
  simp [mergeTicks, List.foldl_append]

theorem nodup_keysOf_mergeTicks (m : List (String × EquityTick))
    (ts : List EquityTick) (h : (keysOf m).Nodup) :
    (keysOf (mergeTicks m ts)).Nodup := by
  induction ts generalizing m with
  | nil => exact h
  | cons t ts ih => exact ih _ (nodup_keysOf_upsert _ _ h)

theorem not_mem_uniqAux_of_mem_seen (l : List String) :
    ∀ (seen : List String) (x : String), x ∈ seen → x ∉ uniqAux seen l := by
  induction l with
  | nil =>
    intro seen x hx
    simp [uniqAux]
  | cons y ys ih =>
    intro seen x hx
    simp only [uniqAux]
    by_cases hy : y ∈ seen
    · rw [if_pos hy]
      exact ih seen x hx
    · rw [if_neg hy]
      intro hmem
      rcases List.mem_cons.mp hmem with he | hm
      · exact hy (he ▸ hx)
      · exact ih (y :: seen) x (List.mem_cons_of_mem y hx) hm

theorem nodup_uniqAux (l : List String) :
    ∀ seen : List String, (uniqAux seen l).Nodup := by
  induction l with
  | nil =>
    intro seen
    simp [uniqAux]
  | cons y ys ih =>
    intro seen
    simp only [uniqAux]
    by_cases hy : y ∈ seen
    · rw [if_pos hy]
      exact ih seen
    · rw [if_neg hy]
      exact List.nodup_cons.mpr
        ⟨not_mem_uniqAux_of_mem_seen ys (y :: seen) y (List.mem_cons_self y seen),
         ih (y :: seen)⟩

theorem uniqAux_sublist (l : List String) :
    ∀ seen : List String, (uniqAux seen l).Sublist l := by
  induction l with
  | nil =>
    intro seen
    simp [uniqAux]
  | cons y ys ih =>
    intro seen
    simp only [uniqAux]
    by_cases hy : y ∈ seen
    · rw [if_pos hy]
      exact (ih seen).trans (List.sublist_cons_self y ys)
    · rw [if_neg hy]
      exact (ih (y :: seen)).cons₂ y

theorem uniqAux_congr_seen (l : List String) :
    ∀ s₁ s₂ : List String, (∀ x, x ∈ s₁ ↔ x ∈ s₂) →
      uniqAux s₁ l = uniqAux s₂ l := by
  induction l with
  | nil =>
    intro s₁ s₂ h
    rfl
  | cons y ys ih =>
    intro s₁ s₂ h
    simp only [uniqAux]
    by_cases hy : y ∈ s₁
    · rw [if_pos hy, if_pos ((h y).mp hy)]
      exact ih s₁ s₂ h
    · rw [if_neg hy, if_neg (fun hc => hy ((h y).mpr hc))]
      exact congrArg (List.cons y)
        (ih (y :: s₁) (y :: s₂) (fun x => by simp [h x]))

theorem keysOf_map_sort (m : List (String × List OptionRow)) :
    keysOf (m.map (fun p => (p.1, sortByStrike p.2))) = keysOf m := by
  simp [keysOf, List.map_map, Function.comp]

theorem keysOf_foldl_groupStep (rows : List OptionRow) :
    ∀ m : List (String × List OptionRow),
      keysOf (rows.foldl groupStep m) =
        keysOf m ++ uniqAux (keysOf m) (rows.map optKey) := by
  induction rows with
  | nil =>
    intro m
    simp [uniqAux]
  | cons r rest ih =>
    intro m
    rw [List.foldl_cons, ih (groupStep m r)]
    have hk : keysOf (groupStep m r) =
        if optKey r ∈ keysOf m then keysOf m else keysOf m ++ [optKey r] :=
      keysOf_upsert m (optKey r) _
    simp only [List.map_cons, uniqAux]
    by_cases hm : optKey r ∈ keysOf m
    · rw [hk, if_pos hm, if_pos hm]
    · rw [hk, if_neg hm, if_neg hm,
        uniqAux_congr_seen (rest.map optKey) (keysOf m ++ [optKey r])
          (optKey r :: keysOf m) (fun x => by simp [or_comm])]
      simp

/-! ### Claim theorems -/

/-- C1: folding any sequence of equity ticks that all canonicalize to the
same symbol into an equity map with no duplicate keys leaves exactly one
entry for that canonical symbol, and that entry is the whole most recent
tick (with its symbol canonicalized), not a field-level merge; the
`equity_ts` array path of the dispatcher performs exactly this fold, and
`/ES` and `ES` canonicalize to the same key `ES`. -/
theorem equity_latest_wins :
    (∀ (m : List (String × EquityTick)) (pre : List EquityTick)
        (t : EquityTick) (sym : String),
      (keysOf m).Nodup →
      (∀ u ∈ pre ++ [t], normalizeSymbol u.symbol = sym) →
      lookupA (mergeTicks m (pre ++ [t])) sym = some (canonTick t) ∧
        countKey (mergeTicks m (pre ++ [t])) sym = 1) ∧
    (∀ (s : AppState) (rows : List EquityTick),
      (handleMsg s (.equityMsg (.arr rows))).equity =
        mergeTicks s.equity rows) ∧
    normalizeSymbol "/ES" = "ES" ∧ normalizeSymbol "ES" = "ES" := by
  refine ⟨fun m pre t sym hnd hsym => ?_, fun s rows => ?_, by decide,
    by decide⟩
  · have ht : normalizeSymbol t.symbol = sym := hsym t (by simp)
    rw [mergeTicks_append_single, ht]
    exact ⟨lookupA_upsert _ _ _,
      countKey_upsert _ _ _ (nodup_keysOf_mergeTicks _ _ hnd)⟩
  · simp only [handleMsg, handleEquity]
    by_cases he : rows.isEmpty
    · have hr : rows = [] := List.isEmpty_iff.mp he
      simp [hr, mergeTicks]
    · simp [he]

/-- The first tick of the C1 witness: futures-style symbol. -/
def esTickA : EquityTick := ⟨"/ES", some 4500, none, none, none, none⟩

/-- The second tick of the C1 witness: bare symbol, newer price. -/
def esTickB : EquityTick := ⟨"ES", some 4600, none, none, none, none⟩

/-- Witness for C1: starting from the empty map, merging a `/ES` tick then an
`ES` tick leaves one entry under `ES` holding the second tick. -/
theorem equity_latest_wins_witness :
    lookupA (mergeTicks [] ([esTickA] ++ [esTickB])) "ES" =
        some (canonTick esTickB) ∧
      countKey (mergeTicks [] ([esTickA] ++ [esTickB])) "ES" = 1 :=
  equity_latest_wins.1 [] [esTickA] esTickB "ES" (by decide) (by decide)

/-- C2: for every batch arriving on the sweeps or blocks topic, the buffer is
first truncated to its most recent 400 entries and the batch is then
appended, so the resulting length never exceeds `400 + N` and the surviving
older entries are the most recent `min 400 (length before)` entries from
before the batch, kept in order (a suffix of the old buffer). -/
theorem buffers_prune_then_append :
    (∀ (s : AppState) (evs : List Flow),
      (handleMsg s (.sweepsMsg evs)).sweeps = takeLast 400 s.sweeps ++ evs) ∧
    (∀ (s : AppState) (evs : List Flow),
      (handleMsg s (.blocksMsg evs)).blocks = takeLast 400 s.blocks ++ evs) ∧
    (∀ prev batch : List Flow,
      (appendBatch prev batch).length ≤ 400 + batch.length) ∧
    (∀ prev : List Flow,
      (takeLast 400 prev).length = min 400 prev.length ∧
        (takeLast 400 prev).IsSuffix prev) := by
  refine ⟨fun s evs => rfl, fun s evs => rfl, fun prev batch => ?_,
    fun prev => ⟨takeLast_length 400 prev, takeLast_suffix 400 prev⟩⟩
  have h := takeLast_length 400 prev
  simp only [appendBatch, List.length_append, h]
  omega

/-- C3: the reconnect delay after the k-th consecutive failure is
`min (1000 * 2 ^ k) 10000` ms, giving 1000, 2000, 4000, 8000, then 10000
forever; `ws.onopen` resets the retry counter, so the failure following a
successful open is delayed 1000 ms again, and `ws.onclose` post-increments
the counter. -/
theorem backoff_sequence_and_reset :
    backoffDelay 0 = 1000 ∧ backoffDelay 1 = 2000 ∧ backoffDelay 2 = 4000 ∧
    backoffDelay 3 = 8000 ∧ (∀ k, 4 ≤ k → backoffDelay k = 10000) ∧
    (∀ s : ConnSt, (onCloseConn (onOpenConn s)).1 = 1000) ∧
    (∀ s : ConnSt, (onCloseConn s).2.retry = s.retry + 1) := by
  refine ⟨rfl, rfl, rfl, rfl, fun k hk => ?_, fun s => rfl, fun s => rfl⟩
  have h16 : (16 : ℕ) ≤ 2 ^ k := by
    calc (16 : ℕ) = 2 ^ 4 := by norm_num
    _ ≤ 2 ^ k := Nat.pow_le_pow_right (by norm_num) hk
  have : (10000 : ℕ) ≤ 1000 * 2 ^ k := by nlinarith
  simp only [backoffDelay]
  omega

/-- Witness for C3: the theorem applied at the fifth failure. -/
theorem backoff_sequence_and_reset_witness : backoffDelay 5 = 10000 :=
  backoff_sequence_and_reset.2.2.2.2.1 5 (by norm_num)

/-- C4 counterexample: `notionalOf {qty: 10, price: 5}` does not return 500
(the options multiplier makes it 5000). -/
theorem notionalOf_ten_five_ne_500 :
    notionalOf ⟨none, some 10, some 5⟩ ≠ 500 := by
  have h : notionalOf ⟨none, some 10, some 5⟩ = 5000 := by
    simp only [notionalOf, Option.getD_some, Option.getD_none]
    norm_num [round_eq]
  rw [h]
  norm_num

/-- C4 amended: `notionalOf {qty: 10, price: 5}` (no explicit notional)
returns `round(10 * 5 * 100) = 5000`. -/
theorem notionalOf_ten_five_eq_5000 :
    notionalOf ⟨none, some 10, some 5⟩ = 5000 := by
  simp only [notionalOf, Option.getD_some, Option.getD_none]
  norm_num [round_eq]

/-- C5 counterexample: an explicit notional is not returned as provided —
`Math.round` wraps the whole expression, so `notional: 999.5` comes back as
1000, not 999.5. -/
theorem notionalOf_rounds_explicit_notional :
    ((notionalOf ⟨some (1999/2), some 1, some 1⟩ : ℤ) : ℚ) ≠ 1999/2 := by
  have h : notionalOf ⟨some (1999/2), some 1, some 1⟩ = 1000 := by
    simp only [notionalOf, Option.getD_some, Option.getD_none]
    norm_num [round_eq]
  rw [h]
  norm_num

/-- C5 amended: `notionalOf` returns `round(notional)` when an explicit
notional is present (hence an integer notional such as 999 is returned
unchanged), and otherwise returns `round(qty * price * 100)` with a missing
qty or price treated as 0. -/
theorem notionalOf_explicit_wins :
    (∀ (m : NotionalArgs) (q : ℚ), m.notional = some q →
      notionalOf m = round q) ∧
    notionalOf ⟨some 999, some 1, some 1⟩ = 999 ∧
    (∀ qty price : Option ℚ,
      notionalOf ⟨none, qty, price⟩ =
        round ((qty.getD 0) * (price.getD 0) * 100)) := by
  refine ⟨fun m q h => ?_, ?_, fun qty price => rfl⟩
  · simp [notionalOf, h]
  · simp only [notionalOf, Option.getD_some]
    norm_num [round_eq]

/-- Witness for C5's amended theorem: the explicit-notional branch applied at
`notional: 999`. -/
theorem notionalOf_explicit_wins_witness :
    notionalOf ⟨some 999, some 1, some 1⟩ = round (999 : ℚ) :=
  notionalOf_explicit_wins.1 ⟨some 999, some 1, some 1⟩ 999 rfl

/-- C6 counterexample: a `basis`-topic message carrying the non-finite value
`NaN` does not store `null` — the unchecked value itself is stored. -/
theorem basisTopic_stores_nan :
    (handleMsg initState (.basisMsg .nan)).basis ≠ .nullv := by decide

/-- C6 amended: on the `equity_ts` envelope path an absent, non-numeric or
non-finite `es_spx_basis` stores `null` (never zero, never the invalid
value) and a finite number is stored directly, and a plain-array payload
stores `null`; on the dedicated `basis` topic path only `null`/`undefined`
become `null` — any other payload value, finite or not, is stored as-is
(so a finite number is stored directly there too, but an invalid value is
kept rather than nulled). -/
theorem basis_paths :
    (∀ (s : AppState) (rows : Option (List EquityTick)) (b : JsVal),
      (handleMsg s (.equityMsg (.env rows b))).basis =
        if isFiniteNum b then b else .nullv) ∧
    (∀ (s : AppState) (rows : List EquityTick),
      (handleMsg s (.equityMsg (.arr rows))).basis = .nullv) ∧
    (∀ (s : AppState) (es : JsVal),
      (handleMsg s (.basisMsg es)).basis =
        if es = .undef then .nullv else es) ∧
    (∀ (s : AppState) (q : ℚ),
      (handleMsg s (.basisMsg (.num q))).basis = .num q) := by
  refine ⟨fun s rows b => ?_, fun s rows => ?_, fun s es => rfl,
    fun s q => rfl⟩
  · cases b <;> simp [handleMsg, handleEquity, isFiniteNum] <;> split <;> rfl
  · simp only [handleMsg, handleEquity, isFiniteNum]
    split <;> rfl

/-- C8: `fmtIvPct` treats inputs at or below 1.5 as 0–1 ratios scaled by 100
and inputs above 1.5 as already-percent, caps at 300, rounds, and appends a
percent sign; invalid or non-positive input gives the missing marker. The
first conjunct matches the source against the claim's own wording
(`fmtIvPctSpec`); the rest are the claim's examples. -/
theorem fmtIvPct_matches_spec :
    (∀ iv, fmtIvPct iv = fmtIvPctSpec iv) ∧
    fmtIvPct (some (23/100)) = "23%" ∧
    fmtIvPct (some 45) = "45%" ∧
    fmtIvPct (some (7/5)) = "140%" ∧
    fmtIvPct (some (-1)) = "—" ∧
    fmtIvPct none = "—" := by
  refine ⟨fun iv => ?_, ?_, ?_, ?_, ?_, rfl⟩
  case refine_2 =>
    have h1 : ¬ ((23:ℚ)/100 ≤ 0) := by norm_num
    have h2 : ¬ ((3:ℚ)/2 < 23/100) := by norm_num
    have h3 : round (min ((23:ℚ)/100 * 100) 300) = 23 := by
      norm_num [round_eq, min_def]
    simp only [fmtIvPct, if_neg h1, if_neg h2, h3]
    rfl
  case refine_3 =>
    have h1 : ¬ ((45:ℚ) ≤ 0) := by norm_num
    have h2 : (3:ℚ)/2 < 45 := by norm_num
    have h3 : round (min (45:ℚ) 300) = 45 := by
      norm_num [round_eq, min_def]
    simp only [fmtIvPct, if_neg h1, if_pos h2, h3]
    rfl
  case refine_4 =>
    have h1 : ¬ ((7:ℚ)/5 ≤ 0) := by norm_num
    have h2 : ¬ ((3:ℚ)/2 < 7/5) := by norm_num
    have h3 : round (min ((7:ℚ)/5 * 100) 300) = 140 := by
      norm_num [round_eq, min_def]
    simp only [fmtIvPct, if_neg h1, if_neg h2, h3]
    rfl
  case refine_5 =>
    have h1 : ((-1:ℚ) ≤ 0) := by norm_num
    simp only [fmtIvPct, if_pos h1]
  cases iv with
  | none => rfl
  | some n =>
    by_cases h0 : n ≤ 0
    · simp [fmtIvPct, fmtIvPctSpec, h0]
    · by_cases h1 : n ≤ 3/2
      · simp [fmtIvPct, fmtIvPctSpec, h0, h1, not_lt.mpr h1]
      · simp [fmtIvPct, fmtIvPctSpec, h0, h1, not_le.mp h1]

/-- C9: a frame whose JSON decoding fails only sets the last-error value and
leaves the equity map, options, sweeps, blocks, watchlist and basis
unchanged; processing then continues with the remaining frames from that
state; and a decoded frame with an unrecognized topic changes nothing at
all, last-error included. -/
theorem malformed_and_unknown_frames :
    (∀ (s : AppState) (e : String),
      (handleFrame s (.malformed e)).equity = s.equity ∧
      (handleFrame s (.malformed e)).options = s.options ∧
      (handleFrame s (.malformed e)).sweeps = s.sweeps ∧
      (handleFrame s (.malformed e)).blocks = s.blocks ∧
      (handleFrame s (.malformed e)).wl = s.wl ∧
      (handleFrame s (.malformed e)).basis = s.basis ∧
      (handleFrame s (.malformed e)).err = some e) ∧
    (∀ (s : AppState) (e : String) (rest : List Frame),
      foldFrames s (.malformed e :: rest) =
        foldFrames (handleFrame s (.malformed e)) rest) ∧
    (∀ (s : AppState) (topic : String),
      handleMsg s (.unknownMsg topic) = s) :=
  ⟨fun _ _ => ⟨rfl, rfl, rfl, rfl, rfl, rfl, rfl⟩,
   fun _ _ _ => rfl, fun _ _ => rfl⟩

/-- C7: `parseSymbolsList` accepts a string, an array, or a delimited string
(whitespace, comma, semicolon, pipe); after trimming and uppercasing, a
candidate is kept exactly when it matches the claim's rule (1–10 characters,
first alphanumeric, rest alphanumeric or `. - _ /`), restated as
`tickerOkSpec`; the result is de-duplicated keeping first occurrences in
order (`Nodup` plus being a sublist of the filtered token list), and the
claim's five examples hold. -/
theorem parseSymbolsList_spec :
    (∀ s : String, tickerOk s = tickerOkSpec s) ∧
    parseSymbolsList (.strI "NVDA") = ["NVDA"] ∧
    parseSymbolsList (.strI "AB,CD") = ["AB", "CD"] ∧
    parseSymbolsList (.strI "toolongsymb") = [] ∧
    parseSymbolsList (.strI "1abc") = ["1ABC"] ∧
    parseSymbolsList (.strI "-abc") = [] ∧
    (∀ v, (parseSymbolsList v).Nodup) ∧
    (∀ v, (parseSymbolsList v).Sublist
      (((rawTokens v).map procToken).filter tickerOk)) := by
  refine ⟨fun s => ?_, by decide, by decide, by decide, by decide, by decide,
    fun v => nodup_uniqAux _ [], fun v => uniqAux_sublist _ []⟩
  obtain ⟨l⟩ := s
  rw [Bool.eq_iff_iff]
  cases l with
  | nil => simp [tickerOk, tickerOkSpec]
  | cons c cs =>
    simp only [tickerOk, tickerOkSpec, String.toList, List.head?_cons,
      List.tail_cons, List.length_cons, Bool.and_eq_true, List.all_eq_true,
      decide_eq_true_eq]
    constructor
    · rintro ⟨⟨h1, h2⟩, h3⟩
      exact ⟨⟨⟨by omega, by omega⟩, h1⟩, h3⟩
    · rintro ⟨⟨⟨h0, h2⟩, h1⟩, h3⟩
      exact ⟨⟨h1, by omega⟩, h3⟩

/-- An example option row: AAPL January, strike 150. -/
def row150 : OptionRow := ⟨"AAPL", "2025-01-17", 150, .C, none, none, none, none⟩

/-- An example option row: AAPL January, strike 140. -/
def row140 : OptionRow := ⟨"AAPL", "2025-01-17", 140, .C, none, none, none, none⟩

/-- An example option row: AAPL February, strike 155. -/
def row155 : OptionRow := ⟨"AAPL", "2025-02-21", 155, .C, none, none, none, none⟩

/-- C10: `optGrouped` partitions the option rows by the composite key
`underlying:expiration`; every emitted group is sorted ascending by strike,
the groups appear in first-seen key order (the key sequence is exactly the
de-duplicated key list of the input, in input order), and the claim's
concrete example produces two groups with the first group's strikes sorted
`[140, 150]`. -/
theorem optGrouped_spec :
    optGrouped [row150, row140, row155] =
      [("AAPL:2025-01-17", [row140, row150]),
       ("AAPL:2025-02-21", [row155])] ∧
    (∀ opts : List OptionRow, ∀ g ∈ optGrouped opts,
      g.2.Sorted strikeLE) ∧
    (∀ opts : List OptionRow,
      (optGrouped opts).map Prod.fst = uniq (opts.map optKey)) := by
  refine ⟨by decide, fun opts g hg => ?_, fun opts => ?_⟩
  · obtain ⟨p, hp, rfl⟩ := List.mem_map.mp hg
    exact List.sorted_insertionSort strikeLE p.2
  · calc (optGrouped opts).map Prod.fst
        = keysOf (opts.foldl groupStep []) := keysOf_map_sort _
      _ = keysOf ([] : List (String × List OptionRow)) ++
            uniqAux (keysOf ([] : List (String × List OptionRow)))
              (opts.map optKey) := keysOf_foldl_groupStep opts []
      _ = uniq (opts.map optKey) := by simp [keysOf, uniq]

/-- Witness for C10: the sortedness conjunct applied to the first group of
the concrete example. -/
theorem optGrouped_spec_witness :
    List.Sorted strikeLE [row140, row150] :=
  optGrouped_spec.2.1 [row150, row140, row155]
    ("AAPL:2025-01-17", [row140, row150])
    (by rw [optGrouped_spec.1]; exact List.mem_cons_self _ _)

end TradeFlash
